import Mathlib

/-!
Shallow embedding of `number_sticks.py`: a seven-segment-display puzzle
solver.  Digits are rendered as sets of "sticks" (segments 1-7); the cost of
transforming one digit into another is the size of the symmetric difference
of their stick sets.  `candidate_numbers` enumerates all same-length digit
strings within a move cutoff of a target; `find_lowest_sum` / `find_lowest_sub`
join three candidate lists to find low-cost valid equations.
-/

namespace NumberSticks

open scoped List

/-- `DEFAULT_MOVE_CUTOFF` from the source: default bound on total moves. -/
def DEFAULT_MOVE_CUTOFF : Nat := 6

/-- `MAX_VAL` from the source: limit on operand magnitude. -/
def MAX_VAL : Nat := 99999

/-- `STICK_SETS`: mapping from each digit to its set of active sticks,
written as a duplicate-free list, in the source's order. -/
def STICK_SETS : Nat → List Nat
  | 0 => [1, 2, 3, 4, 5, 6]
  | 1 => [2, 3]
  | 2 => [1, 2, 4, 5, 7]
  | 3 => [1, 4, 7, 5, 6]
  | 4 => [3, 7, 5, 6]
  | 5 => [1, 4, 7, 3, 6]
  | 6 => [1, 2, 3, 4, 6, 7]
  | 7 => [4, 5, 6]
  | 8 => [1, 2, 3, 4, 5, 6, 7]
  | 9 => [1, 3, 4, 5, 6, 7]
  | _ => []

/-- The `ValueMove` container: a candidate value together with the number of
moves needed to reach it.  The value is an integer because `__sub__`
subtracts values (which can go negative) while still adding the moves. -/
structure ValueMove where
  value : Int
  moves : Nat
deriving DecidableEq, Repr

/-- `ValueMove.__add__`: add the values, add the moves. -/
def ValueMove.add (a b : ValueMove) : ValueMove :=
  ⟨a.value + b.value, a.moves + b.moves⟩

/-- `ValueMove.__sub__`: subtract the values, still add the moves. -/
def ValueMove.sub (a b : ValueMove) : ValueMove :=
  ⟨a.value - b.value, a.moves + b.moves⟩

/-- `compute_moves(from_val, to_val)`: size of the symmetric difference of the
two digits' stick sets (`len(from - to) + len(to - from)`). -/
def compute_moves (from_val to_val : Nat) : Nat :=
  let from_sticks := STICK_SETS from_val
  let to_sticks := STICK_SETS to_val
  (from_sticks.filter (fun s => !(to_sticks.contains s))).length
    + (to_sticks.filter (fun s => !(from_sticks.contains s))).length

/-- The module-level mutable dict `FROM_TO_CACHE`, modelled as a partial map
from digit pairs to costs. -/
def Cache : Type := Nat → Nat → Option Nat

/-- The initial state of `FROM_TO_CACHE`: the empty dict. -/
def FROM_TO_CACHE_init : Cache := fun _ _ => none

/-- `populate_cache()`: fill the cache with `compute_moves` for all digit
pairs in 0-9, leaving other keys untouched. -/
def populate_cache (c : Cache) : Cache := fun from_val to_val =>
  if from_val < 10 then
    if to_val < 10 then some (compute_moves from_val to_val) else c from_val to_val
  else c from_val to_val

/-- `str(val).zfill(positions)` as a digit list: exactly `positions` decimal
digits of `val`, most significant first, zero padded on the left.  Faithful
to the Python provided `val < 10 ^ positions` (zfill never truncates). -/
def zfill (positions val : Nat) : List Nat :=
  match positions with
  | 0 => []
  | p + 1 => zfill p (val / 10) ++ [val % 10]

/-- `generate_numbers(positions)`: raises for `positions < 1`; otherwise
yields, for every `val` in `[0, 10 ** positions)` in ascending order, the
zero-padded digit list of `val`. -/
def generate_numbers (positions : Nat) : Except String (List (List Nat)) :=
  if positions < 1 then
    Except.error "Will not generate numbers below 1 position."
  else
    Except.ok ((List.range (10 ^ positions)).map (zfill positions))

/-- Fuel-driven digits of `n`, most significant first (`fuel ≥ n` suffices). -/
def digitsAux : Nat → Nat → List Nat
  | 0, n => [n % 10]
  | fuel + 1, n => if n < 10 then [n] else digitsAux fuel (n / 10) ++ [n % 10]

/-- `[int(ch) for ch in str(n)]`: the decimal digits of `n`, most significant
first, no leading zeros (and `[0]` for `n = 0`). -/
def str_digits (n : Nat) : List Nat := digitsAux n n

/-- `int("".join(str(x) for x in ds))`: read a digit list back as a number. -/
def digits_to_num (ds : List Nat) : Nat := ds.foldl (fun acc d => 10 * acc + d) 0

/-- The inner loop of `candidate_numbers`: total moves between two digit
lists, summing `compute_moves` position by position over their zip. -/
def moves_between (target possible : List Nat) : Nat :=
  ((target.zip possible).map (fun pr => compute_moves pr.1 pr.2)).sum

/-- The cost of transforming `target` into the same-length zero-padded
rendering of `cand`: what `candidate_numbers` computes for each candidate. -/
def transform_cost (target cand : Nat) : Nat :=
  moves_between (str_digits target) (zfill (str_digits target).length cand)

/-- The order used by `sorted(candidates)`: `ValueMove.__lt__`/`__eq__`
compare only the `moves` field.  Python's sort is stable, so it is modelled
by the (stable) insertion sort over this total preorder. -/
def ValueMove.le (a b : ValueMove) : Prop := a.moves ≤ b.moves

instance : DecidableRel ValueMove.le := fun a b => Nat.decLe a.moves b.moves

instance : IsTotal ValueMove ValueMove.le := ⟨fun a b => Nat.le_total a.moves b.moves⟩

instance : IsTrans ValueMove ValueMove.le := ⟨fun _ _ _ => Nat.le_trans⟩

/-- The `candidates` accumulator loop of `candidate_numbers`, before the
final `sorted(...)`: for every generated same-length digit list, keep it when
its total moves do not exceed the cutoff. -/
def raw_candidates (target_num : Nat) (move_cutoff : Nat) : List ValueMove :=
  let target_list := str_digits target_num
  match generate_numbers target_list.length with
  | Except.error _ => []
  | Except.ok nums =>
    nums.filterMap (fun possible =>
      let moves := moves_between target_list possible
      if moves > move_cutoff then none
      else some (ValueMove.mk (digits_to_num possible : Int) moves))

/-- `candidate_numbers(target_num, move_cutoff)`: all same-length candidates
within the cutoff, as `ValueMove`s, stably sorted ascending by moves
(Python's `sorted` with `ValueMove.__lt__`, which compares only moves). -/
def candidate_numbers (target_num : Nat) (move_cutoff : Nat) : List ValueMove :=
  (raw_candidates target_num move_cutoff).insertionSort ValueMove.le

/-- One solver answer: the three chosen candidates and the total move count.
The Python stores the formatted string `"{first} + {second} = {total}, takes
{moves} moves."`; the string is determined by exactly these fields. -/
structure EquationResult where
  first : ValueMove
  second : ValueMove
  total : ValueMove
  moves : Nat
deriving DecidableEq, Repr

/-- The order used by `sorted(answers, key=lambda x: x.moves)`: compare only
the move totals; stable, hence modelled by insertion sort. -/
def EquationResult.le (a b : EquationResult) : Prop := a.moves ≤ b.moves

instance : DecidableRel EquationResult.le := fun a b => Nat.decLe a.moves b.moves

instance : IsTotal EquationResult EquationResult.le :=
  ⟨fun a b => Nat.le_total a.moves b.moves⟩

instance : IsTrans EquationResult EquationResult.le := ⟨fun _ _ _ => Nat.le_trans⟩

/-- `find_lowest_sum(val1, val2, val_sum, total_cutoff)`: join the three
candidate lists (each generated with the fixed local cutoff 4), keep triples
with `first + second = total` and combined moves within the cutoff, sorted
ascending by moves (stable `sorted` with key `moves`). -/
def find_lowest_sum (val1 val2 val_sum : Nat) (total_cutoff : Nat) :
    List EquationResult :=
  let first_candidates := candidate_numbers val1 4
  let second_candidates := candidate_numbers val2 4
  let sum_candidates := candidate_numbers val_sum 4
  let answers := sum_candidates.flatMap (fun total =>
    first_candidates.flatMap (fun first =>
      second_candidates.filterMap (fun second =>
        let temp := ValueMove.add first second
        if temp.value = total.value then
          if temp.moves + total.moves > total_cutoff then none
          else some ⟨first, second, total, temp.moves + total.moves⟩
        else none)))
  answers.insertionSort EquationResult.le

/-- `find_lowest_sub(val1, val2, val_sum, total_cutoff)`: like
`find_lowest_sum` but the triple must satisfy `first - second = total` and
one extra move is charged for changing `+` to `-`. -/
def find_lowest_sub (val1 val2 val_sum : Nat) (total_cutoff : Nat) :
    List EquationResult :=
  let first_candidates := candidate_numbers val1 4
  let second_candidates := candidate_numbers val2 4
  let sum_candidates := candidate_numbers val_sum 4
  let answers := sum_candidates.flatMap (fun total =>
    first_candidates.flatMap (fun first =>
      second_candidates.filterMap (fun second =>
        let temp := ValueMove.sub first second
        if temp.value = total.value then
          if temp.moves + total.moves + 1 > total_cutoff then none
          else some ⟨first, second, total, temp.moves + total.moves + 1⟩
        else none)))
  answers.insertionSort EquationResult.le

/-- `candidate_numbers` as executed against the module state: it runs with
some current contents of `FROM_TO_CACHE`, but its body never reads the cache
(all costs come from direct `compute_moves` calls), so the translation has an
unused cache argument. -/
def candidate_numbers_st (_cache : Cache) (target_num move_cutoff : Nat) :
    List ValueMove :=
  candidate_numbers target_num move_cutoff

/-- `find_lowest_sum` as executed against the module state; the body never
reads `FROM_TO_CACHE`. -/
def find_lowest_sum_st (_cache : Cache) (val1 val2 val_sum total_cutoff : Nat) :
    List EquationResult :=
  find_lowest_sum val1 val2 val_sum total_cutoff

/-- `find_lowest_sub` as executed against the module state; the body never
reads `FROM_TO_CACHE`. -/
def find_lowest_sub_st (_cache : Cache) (val1 val2 val_sum total_cutoff : Nat) :
    List EquationResult :=
  find_lowest_sub val1 val2 val_sum total_cutoff

/-! ### Helper lemmas about digit lists -/

theorem zfill_length (p v : Nat) : (zfill p v).length = p := by
  induction p generalizing v with
  | zero => rfl
  | succ p ih => simp [zfill, ih]

theorem zfill_digits_lt (p v : Nat) : ∀ d ∈ zfill p v, d < 10 := by
  induction p generalizing v with
  | zero => intro d hd; simp [zfill] at hd
  | succ p ih =>
    intro d hd
    simp only [zfill, List.mem_append, List.mem_singleton] at hd
    rcases hd with h | h
    · exact ih _ d h
    · subst h; exact Nat.mod_lt _ (by norm_num)

theorem foldl_zfill (p : Nat) : ∀ v a, v < 10 ^ p →
    (zfill p v).foldl (fun acc d => 10 * acc + d) a = a * 10 ^ p + v := by
  induction p with
  | zero =>
    intro v a hv
    have h1 : v < 1 := by rw [pow_zero] at hv; exact hv
    have hv0 : v = 0 := by omega
    subst hv0
    simp [zfill]
  | succ p ih =>
    intro v a hv
    have h1 : v / 10 < 10 ^ p := by
      rw [Nat.div_lt_iff_lt_mul (by norm_num)]
      rw [pow_succ] at hv
      exact hv
    simp only [zfill, List.foldl_append, List.foldl_cons, List.foldl_nil]
    rw [ih (v / 10) a h1, pow_succ, ← mul_assoc]
    omega

theorem digits_to_num_zfill {p v : Nat} (h : v < 10 ^ p) :
    digits_to_num (zfill p v) = v := by
  unfold digits_to_num
  rw [foldl_zfill p v 0 h]
  simp

theorem digitsAux_zfill : ∀ fuel n, n ≤ fuel →
    zfill (digitsAux fuel n).length n = digitsAux fuel n := by
  intro fuel
  induction fuel with
  | zero =>
    intro n hn
    have : n = 0 := Nat.le_zero.mp hn
    subst this
    rfl
  | succ fuel ih =>
    intro n hn
    by_cases h : n < 10
    · simp [digitsAux, h, zfill, Nat.mod_eq_of_lt h]
    · have hrec : n / 10 ≤ fuel := by omega
      simp only [digitsAux, if_neg h, List.length_append, List.length_cons,
        List.length_nil, zfill]
      rw [ih (n / 10) hrec]

theorem digitsAux_val_lt : ∀ fuel n, n ≤ fuel → n < 10 ^ (digitsAux fuel n).length := by
  intro fuel
  induction fuel with
  | zero =>
    intro n hn
    have : n = 0 := Nat.le_zero.mp hn
    subst this
    simp [digitsAux]
  | succ fuel ih =>
    intro n hn
    by_cases h : n < 10
    · simp only [digitsAux, if_pos h, List.length_cons, List.length_nil, pow_one]
      exact h
    · have hrec : n / 10 ≤ fuel := by omega
      have hlt := ih (n / 10) hrec
      simp only [digitsAux, if_neg h, List.length_append, List.length_cons,
        List.length_nil, pow_succ]
      omega

theorem digitsAux_digits_lt : ∀ fuel n, ∀ d ∈ digitsAux fuel n, d < 10 := by
  intro fuel
  induction fuel with
  | zero =>
    intro n d hd
    simp only [digitsAux, List.mem_singleton] at hd
    subst hd
    exact Nat.mod_lt _ (by norm_num)
  | succ fuel ih =>
    intro n d hd
    by_cases h : n < 10
    · simp only [digitsAux, if_pos h, List.mem_singleton] at hd
      subst hd
      exact h
    · simp only [digitsAux, if_neg h, List.mem_append, List.mem_singleton] at hd
      rcases hd with h' | h'
      · exact ih _ d h'
      · subst h'; exact Nat.mod_lt _ (by norm_num)

theorem digitsAux_length_pos (fuel n : Nat) : 0 < (digitsAux fuel n).length := by
  cases fuel with
  | zero => simp [digitsAux]
  | succ fuel =>
    by_cases h : n < 10
    · simp [digitsAux, h]
    · simp [digitsAux, h]

theorem str_digits_zfill (n : Nat) : zfill (str_digits n).length n = str_digits n :=
  digitsAux_zfill n n (Nat.le_refl n)

theorem str_digits_val_lt (n : Nat) : n < 10 ^ (str_digits n).length :=
  digitsAux_val_lt n n (Nat.le_refl n)

theorem str_digits_digits_lt (n : Nat) : ∀ d ∈ str_digits n, d < 10 :=
  digitsAux_digits_lt n n

theorem str_digits_length_pos (n : Nat) : 0 < (str_digits n).length :=
  digitsAux_length_pos n n

theorem digits_to_num_str_digits (n : Nat) : digits_to_num (str_digits n) = n := by
  conv_lhs => rw [← str_digits_zfill n]
  exact digits_to_num_zfill (str_digits_val_lt n)

/-! ### Characterising membership in the candidate lists -/

theorem compute_moves_eq_zero_iff :
    ∀ x, x < 10 → ∀ y, y < 10 → (compute_moves x y = 0 ↔ x = y) := by decide

theorem moves_between_cons (d e : Nat) (ds es : List Nat) :
    moves_between (d :: ds) (e :: es) = compute_moves d e + moves_between ds es := by
  simp [moves_between]

theorem moves_between_eq_zero :
    ∀ ds es : List Nat, ds.length = es.length → (∀ d ∈ ds, d < 10) →
      (∀ e ∈ es, e < 10) → (moves_between ds es = 0 ↔ ds = es) := by
  intro ds
  induction ds with
  | nil =>
    intro es h _ _
    have : es = [] := by simpa using h.symm
    subst this
    simp [moves_between]
  | cons d ds ih =>
    intro es h hd he
    cases es with
    | nil => simp at h
    | cons e es =>
      have hlen : ds.length = es.length := by simpa using h
      have hd' : ∀ x ∈ ds, x < 10 := fun x hx => hd x (List.mem_cons_of_mem d hx)
      have he' : ∀ x ∈ es, x < 10 := fun x hx => he x (List.mem_cons_of_mem e hx)
      rw [moves_between_cons]
      constructor
      · intro h0
        have h1 : compute_moves d e = 0 := by omega
        have h2 : moves_between ds es = 0 := by omega
        have hde : d = e :=
          (compute_moves_eq_zero_iff d (hd d (List.mem_cons_self d _)) e
            (he e (List.mem_cons_self e _))).mp h1
        have hds : ds = es := (ih es hlen hd' he').mp h2
        rw [hde, hds]
      · intro heq
        have hde : d = e := by injection heq
        have hds : ds = es := by injection heq
        have h1 : compute_moves d e = 0 :=
          (compute_moves_eq_zero_iff d (hd d (List.mem_cons_self d _)) e
            (he e (List.mem_cons_self e _))).mpr hde
        have h2 : moves_between ds es = 0 := (ih es hlen hd' he').mpr hds
        omega

theorem generate_numbers_of_pos {p : Nat} (h : 0 < p) :
    generate_numbers p = Except.ok ((List.range (10 ^ p)).map (zfill p)) := by
  unfold generate_numbers
  rw [if_neg (by omega)]

/-- The filter loop of `candidate_numbers`, rewritten over the plain range of
values: each kept entry is the value itself with its transform cost. -/
theorem raw_candidates_eq (t k : Nat) :
    raw_candidates t k = (List.range (10 ^ (str_digits t).length)).filterMap
      (fun v => if transform_cost t v > k then none
                else some (ValueMove.mk (v : Int) (transform_cost t v))) := by
  simp only [raw_candidates]
  rw [generate_numbers_of_pos (str_digits_length_pos t)]
  simp only [List.filterMap_map]
  apply List.filterMap_congr
  intro v hv
  have hval : digits_to_num (zfill (str_digits t).length v) = v :=
    digits_to_num_zfill (List.mem_range.mp hv)
  simp only [Function.comp_apply, transform_cost, hval]

theorem mem_raw_candidates {t k : Nat} {vm : ValueMove} :
    vm ∈ raw_candidates t k ↔
      ∃ v : Nat, v < 10 ^ (str_digits t).length ∧
        vm = ValueMove.mk (v : Int) (transform_cost t v) ∧ transform_cost t v ≤ k := by
  rw [raw_candidates_eq]
  simp only [List.mem_filterMap, List.mem_range]
  constructor
  · rintro ⟨v, hv, hsome⟩
    by_cases h : transform_cost t v > k
    · rw [if_pos h] at hsome
      exact absurd hsome (by simp)
    · rw [if_neg h] at hsome
      have := Option.some.inj hsome
      exact ⟨v, hv, this.symm, by omega⟩
  · rintro ⟨v, hv, heq, hle⟩
    refine ⟨v, hv, ?_⟩
    rw [if_neg (by omega), heq]

theorem mem_candidate_numbers {t k : Nat} {vm : ValueMove} :
    vm ∈ candidate_numbers t k ↔
      ∃ v : Nat, v < 10 ^ (str_digits t).length ∧
        vm = ValueMove.mk (v : Int) (transform_cost t v) ∧ transform_cost t v ≤ k := by
  unfold candidate_numbers
  rw [List.mem_insertionSort]
  exact mem_raw_candidates

theorem mem_find_lowest_sum {a b c k : Nat} {r : EquationResult} :
    r ∈ find_lowest_sum a b c k ↔
      r.first ∈ candidate_numbers a 4 ∧ r.second ∈ candidate_numbers b 4 ∧
      r.total ∈ candidate_numbers c 4 ∧
      r.first.value + r.second.value = r.total.value ∧
      r.moves = r.first.moves + r.second.moves + r.total.moves ∧ r.moves ≤ k := by
  obtain ⟨rf, rs, rt, rm⟩ := r
  simp only [find_lowest_sum, List.mem_insertionSort, List.mem_flatMap,
    List.mem_filterMap]
  constructor
  · rintro ⟨total, htotal, first, hfirst, second, hsecond, hsome⟩
    simp only [ValueMove.add] at hsome
    split at hsome
    case isTrue h1 =>
      split at hsome
      case isTrue h2 => exact absurd hsome (by simp)
      case isFalse h2 =>
        rw [Option.some.injEq, EquationResult.mk.injEq] at hsome
        obtain ⟨hf, hs, ht, hm⟩ := hsome
        subst hf; subst hs; subst ht; subst hm
        exact ⟨hfirst, hsecond, htotal, h1, rfl, by omega⟩
    case isFalse h1 => exact absurd hsome (by simp)
  · rintro ⟨h1, h2, h3, h4, h5, h6⟩
    refine ⟨rt, h3, rf, h1, rs, h2, ?_⟩
    simp only [ValueMove.add]
    rw [if_pos h4, if_neg (by omega : ¬ rf.moves + rs.moves + rt.moves > k), ← h5]

theorem mem_find_lowest_sub {a b c k : Nat} {r : EquationResult} :
    r ∈ find_lowest_sub a b c k ↔
      r.first ∈ candidate_numbers a 4 ∧ r.second ∈ candidate_numbers b 4 ∧
      r.total ∈ candidate_numbers c 4 ∧
      r.first.value - r.second.value = r.total.value ∧
      r.moves = r.first.moves + r.second.moves + r.total.moves + 1 ∧ r.moves ≤ k := by
  obtain ⟨rf, rs, rt, rm⟩ := r
  simp only [find_lowest_sub, List.mem_insertionSort, List.mem_flatMap,
    List.mem_filterMap]
  constructor
  · rintro ⟨total, htotal, first, hfirst, second, hsecond, hsome⟩
    simp only [ValueMove.sub] at hsome
    split at hsome
    case isTrue h1 =>
      split at hsome
      case isTrue h2 => exact absurd hsome (by simp)
      case isFalse h2 =>
        rw [Option.some.injEq, EquationResult.mk.injEq] at hsome
        obtain ⟨hf, hs, ht, hm⟩ := hsome
        subst hf; subst hs; subst ht; subst hm
        exact ⟨hfirst, hsecond, htotal, h1, rfl, by omega⟩
    case isFalse h1 => exact absurd hsome (by simp)
  · rintro ⟨h1, h2, h3, h4, h5, h6⟩
    refine ⟨rt, h3, rf, h1, rs, h2, ?_⟩
    simp only [ValueMove.sub]
    rw [if_pos h4, if_neg (by omega : ¬ rf.moves + rs.moves + rt.moves + 1 > k), ← h5]

/-! ### Stability of the sort: ties stay in generation order -/

theorem raw_candidates_pairwise_value (t k : Nat) :
    (raw_candidates t k).Pairwise (fun x y => x.value < y.value) := by
  rw [raw_candidates_eq]
  refine List.Pairwise.filterMap _ ?_ (List.pairwise_lt_range _)
  intro v w hvw x hx y hy
  split at hx
  · simp at hx
  · split at hy
    · simp at hy
    · simp only [Option.mem_def, Option.some.injEq] at hx hy
      subst hx
      subst hy
      exact Int.ofNat_lt.mpr hvw

theorem pair_sublist_antisymm {α : Type} {a b : α} :
    ∀ {l : List α}, l.Nodup → [a, b] <+ l → [b, a] <+ l → a = b := by
  intro l
  induction l with
  | nil =>
    intro _ h _
    exact absurd h (by simp)
  | cons x t ih =>
    intro hnd h1 h2
    rw [List.nodup_cons] at hnd
    obtain ⟨hxt, hndt⟩ := hnd
    cases h1 with
    | cons _ h1' =>
      cases h2 with
      | cons _ h2' => exact ih hndt h1' h2'
      | cons₂ _ h2' => exact absurd (h1'.subset (by simp)) hxt
    | cons₂ _ h1' =>
      cases h2 with
      | cons _ h2' => exact absurd (h2'.subset (by simp)) hxt
      | cons₂ _ h2' => rfl

/-! ### Claim theorems -/

/-- C10: for every target and cutoff, `candidate_numbers` is sorted
ascending by the pair (cost, value): among candidates of equal cost, entries
appear in ascending numeric value order, because candidates are enumerated in
ascending value order and the sort comparing only costs is stable. -/
theorem candidate_numbers_sorted_cost_then_value (t k : Nat) :
    (candidate_numbers t k).Pairwise
      (fun x y => x.moves < y.moves ∨ (x.moves = y.moves ∧ x.value < y.value)) := by
  have hraw := raw_candidates_pairwise_value t k
  have hndraw : (raw_candidates t k).Nodup := by
    refine hraw.imp ?_
    intro x y h
    rintro rfl
    exact lt_irrefl _ h
  have hperm : candidate_numbers t k ~ raw_candidates t k :=
    List.perm_insertionSort _ _
  have hnd : (candidate_numbers t k).Nodup := hperm.nodup_iff.mpr hndraw
  have hsorted : (candidate_numbers t k).Pairwise ValueMove.le :=
    List.sorted_insertionSort _ _
  rw [List.pairwise_iff_forall_sublist]
  intro a b hab
  have hle : a.moves ≤ b.moves := List.pairwise_iff_forall_sublist.mp hsorted hab
  rcases Nat.lt_or_ge a.moves b.moves with hlt | hge
  · exact Or.inl hlt
  · have heqm : a.moves = b.moves := Nat.le_antisymm hle hge
    refine Or.inr ⟨heqm, ?_⟩
    have hne : a ≠ b := by
      rintro rfl
      exact (List.nodup_iff_sublist.mp hnd a) hab
    have ha : a ∈ raw_candidates t k :=
      hperm.subset (hab.subset (by simp))
    have hb : b ∈ raw_candidates t k :=
      hperm.subset (hab.subset (by simp))
    obtain ⟨i, hi, hgi⟩ := List.mem_iff_getElem.mp ha
    obtain ⟨j, hj, hgj⟩ := List.mem_iff_getElem.mp hb
    have hij : i ≠ j := by
      rintro rfl
      rw [hgi] at hgj
      exact hne hgj
    rcases Nat.lt_or_ge i j with h | h
    · have := List.pairwise_iff_getElem.mp hraw i j hi hj h
      rwa [hgi, hgj] at this
    · have hji : j < i := by omega
      have hsub : [b, a] <+ raw_candidates t k := by
        have hp : ([⟨j, hj⟩, ⟨i, hi⟩] :
            List (Fin (raw_candidates t k).length)).Pairwise (· < ·) := by
          simp [List.pairwise_cons, Fin.mk_lt_mk, hji]
        have hs := List.map_getElem_sublist hp
        simpa [hgi, hgj] using hs
      have hba : [b, a] <+ candidate_numbers t k := by
        have hble : ValueMove.le b a := by
          show b.moves ≤ a.moves
          omega
        exact List.pair_sublist_insertionSort hble hsub
      exact absurd (pair_sublist_antisymm hnd hab hba) hne

/-- Witness for C10 at target 55 with cutoff 3. -/
theorem candidate_numbers_sorted_cost_then_value_witness :
    (candidate_numbers 55 3).Pairwise
      (fun x y => x.moves < y.moves ∨ (x.moves = y.moves ∧ x.value < y.value)) :=
  candidate_numbers_sorted_cost_then_value 55 3

/-- C4: for all digits x and y in 0-9, the move cost `compute_moves` is
symmetric and the diagonal is zero. -/
theorem compute_moves_symm_diag :
    ∀ x, x < 10 → ∀ y, y < 10 →
      compute_moves x y = compute_moves y x ∧ compute_moves x x = 0 := by decide

/-- Witness for C4 at the digit pair (4, 5). -/
theorem compute_moves_symm_diag_witness :
    compute_moves 4 5 = compute_moves 5 4 ∧ compute_moves 4 4 = 0 :=
  compute_moves_symm_diag 4 (by decide) 5 (by decide)

/-- C5: `candidate_numbers 55 3` starts with exactly 55 (cost 0), 56 (cost
1), 59 (cost 1) and 65 (cost 1) as its four lowest-cost entries. -/
theorem candidate_numbers_55_3_lowest :
    (candidate_numbers 55 3).take 4 =
      [⟨55, 0⟩, ⟨56, 1⟩, ⟨59, 1⟩, ⟨65, 1⟩] := by decide

/-- C7: for every non-negative target, `candidate_numbers target 0` returns
exactly one result: the target itself with cost 0. -/
theorem candidate_numbers_cutoff_zero (t : Nat) :
    candidate_numbers t 0 = [⟨(t : Int), 0⟩] := by
  have hcost : ∀ v, v < 10 ^ (str_digits t).length →
      (transform_cost t v = 0 ↔ v = t) := by
    intro v hv
    unfold transform_cost
    rw [moves_between_eq_zero (str_digits t) (zfill (str_digits t).length v)
      (by rw [zfill_length]) (str_digits_digits_lt t)
      (zfill_digits_lt (str_digits t).length v)]
    constructor
    · intro h
      have h1 := congrArg digits_to_num h
      rw [digits_to_num_str_digits, digits_to_num_zfill hv] at h1
      omega
    · intro h
      rw [h]
      exact (str_digits_zfill t).symm
  unfold candidate_numbers
  rw [raw_candidates_eq]
  have hfm : (List.range (10 ^ (str_digits t).length)).filterMap
      (fun v => if transform_cost t v > 0 then none
                else some (ValueMove.mk (v : Int) (transform_cost t v)))
      = [⟨(t : Int), 0⟩] := by
    rw [List.filterMap_congr (g := fun v =>
        if v = t then some (ValueMove.mk (t : Int) 0) else none) ?hcong]
    case hcong =>
      intro v hv
      rw [List.mem_range] at hv
      show (if transform_cost t v > 0 then none
            else some (ValueMove.mk (v : Int) (transform_cost t v))) =
        (if v = t then some (ValueMove.mk (t : Int) 0) else none)
      by_cases h : v = t
      · rw [h]
        have h0 : transform_cost t t = 0 := (hcost t (by rwa [h] at hv)).mpr rfl
        rw [h0, if_neg (by omega : ¬ (0 : Nat) > 0), if_pos rfl]
      · rw [if_neg h]
        have hne : transform_cost t v ≠ 0 := fun hz => h ((hcost v hv).mp hz)
        rw [if_pos (by omega : transform_cost t v > 0)]
    · generalize hN : 10 ^ (str_digits t).length = N
      have htN : t < N := by rw [← hN]; exact str_digits_val_lt t
      clear hN hcost
      induction N with
      | zero => omega
      | succ N ih =>
        rw [List.range_succ, List.filterMap_append]
        by_cases hc : t < N
        · rw [ih hc]
          have : (List.filterMap (fun v =>
              if v = t then some (ValueMove.mk (t : Int) 0) else none) [N]) = [] := by
            simp [show N ≠ t by omega]
          rw [this]
          simp
        · have ht : t = N := by omega
          subst ht
          have h0 : (List.range t).filterMap (fun v =>
              if v = t then some (ValueMove.mk (t : Int) 0) else none) = [] := by
            rw [List.filterMap_eq_nil_iff]
            intro v hv
            rw [List.mem_range] at hv
            rw [if_neg (by omega)]
          rw [h0]
          simp
  rw [hfm]
  simp [List.insertionSort]

/-- Witness for C7 at target 7. -/
theorem candidate_numbers_cutoff_zero_witness :
    candidate_numbers 7 0 = [⟨(7 : Int), 0⟩] :=
  candidate_numbers_cutoff_zero 7

/-- C8: `generate_numbers` errors exactly when `positions < 1`; for
`positions ≥ 1` it yields, in ascending order, exactly the zero-padded digit
lists of every integer in `[0, 10 ^ positions)`. -/
theorem generate_numbers_spec (p : Nat) :
    ((∃ e, generate_numbers p = Except.error e) ↔ p < 1) ∧
    (1 ≤ p → ∃ l, generate_numbers p = Except.ok l ∧ l.length = 10 ^ p ∧
      ∀ i, i < 10 ^ p → ∃ ds, l[i]? = some ds ∧ ds.length = p ∧
        (∀ d ∈ ds, d < 10) ∧ digits_to_num ds = i) := by
  constructor
  · constructor
    · rintro ⟨e, he⟩
      by_contra hp
      rw [generate_numbers_of_pos (by omega)] at he
      exact absurd he (by simp)
    · intro hp
      refine ⟨"Will not generate numbers below 1 position.", ?_⟩
      unfold generate_numbers
      rw [if_pos hp]
  · intro hp
    refine ⟨_, generate_numbers_of_pos (by omega), by simp, ?_⟩
    intro i hi
    refine ⟨zfill p i, ?_, zfill_length p i, zfill_digits_lt p i,
      digits_to_num_zfill hi⟩
    rw [List.getElem?_map, List.getElem?_range hi]
    rfl

/-- Witness for C8 at `positions = 2`. -/
theorem generate_numbers_spec_witness :
    ∃ l, generate_numbers 2 = Except.ok l ∧ l.length = 10 ^ 2 ∧
      ∀ i, i < 10 ^ 2 → ∃ ds, l[i]? = some ds ∧ ds.length = 2 ∧
        (∀ d ∈ ds, d < 10) ∧ digits_to_num ds = i :=
  (generate_numbers_spec 2).2 (by decide)

/-- C9: the outputs of the core functions are identical under any two cache
states — in particular whether `FROM_TO_CACHE` is empty or populated by
`populate_cache` — because the core calls `compute_moves` directly and never
reads the cache. -/
theorem core_independent_of_cache (c₁ c₂ : Cache) (t k a b s m : Nat) :
    candidate_numbers_st c₁ t k = candidate_numbers_st c₂ t k ∧
    find_lowest_sum_st c₁ a b s m = find_lowest_sum_st c₂ a b s m ∧
    find_lowest_sub_st c₁ a b s m = find_lowest_sub_st c₂ a b s m :=
  ⟨rfl, rfl, rfl⟩

/-- Witness for C9: the empty cache against the populated one. -/
theorem core_independent_of_cache_witness :
    candidate_numbers_st FROM_TO_CACHE_init 55 3 =
      candidate_numbers_st (populate_cache FROM_TO_CACHE_init) 55 3 ∧
    find_lowest_sum_st FROM_TO_CACHE_init 1 1 2 4 =
      find_lowest_sum_st (populate_cache FROM_TO_CACHE_init) 1 1 2 4 ∧
    find_lowest_sub_st FROM_TO_CACHE_init 1 1 2 4 =
      find_lowest_sub_st (populate_cache FROM_TO_CACHE_init) 1 1 2 4 :=
  core_independent_of_cache FROM_TO_CACHE_init (populate_cache FROM_TO_CACHE_init)
    55 3 1 1 2 4

/-- C2: every result of `find_lowest_sub` satisfies `first − second = total`,
its cost is the sum of the three component transform costs plus the fixed +1
operator penalty, the cost is within the caller's cutoff, and the returned
sequence is sorted ascending by total cost. -/
theorem find_lowest_sub_sound (a b c k : Nat) :
    (find_lowest_sub a b c k).Pairwise (fun r s => r.moves ≤ s.moves) ∧
    ∀ r ∈ find_lowest_sub a b c k,
      r.first.value - r.second.value = r.total.value ∧ r.moves ≤ k ∧
      ∃ x y z : Nat, r.first.value = (x : Int) ∧ r.second.value = (y : Int) ∧
        r.total.value = (z : Int) ∧
        r.moves = transform_cost a x + transform_cost b y + transform_cost c z + 1 := by
  constructor
  · have h : (find_lowest_sub a b c k).Pairwise EquationResult.le := by
      unfold find_lowest_sub
      exact List.sorted_insertionSort _ _
    exact h.imp (fun hh => hh)
  · intro r hr
    rw [mem_find_lowest_sub] at hr
    obtain ⟨h1, h2, h3, h4, h5, h6⟩ := hr
    refine ⟨h4, h6, ?_⟩
    rw [mem_candidate_numbers] at h1 h2 h3
    obtain ⟨x, hx, hxe, hxc⟩ := h1
    obtain ⟨y, hy, hye, hyc⟩ := h2
    obtain ⟨z, hz, hze, hzc⟩ := h3
    refine ⟨x, y, z, by rw [hxe], by rw [hye], by rw [hze], ?_⟩
    rw [h5, hxe, hye, hze]

/-- Witness for C2 at the concrete query (1, 1, 0) with cutoff 4. -/
theorem find_lowest_sub_sound_witness :
    (find_lowest_sub 1 1 0 4).Pairwise (fun r s => r.moves ≤ s.moves) ∧
    ∀ r ∈ find_lowest_sub 1 1 0 4,
      r.first.value - r.second.value = r.total.value ∧ r.moves ≤ 4 ∧
      ∃ x y z : Nat, r.first.value = (x : Int) ∧ r.second.value = (y : Int) ∧
        r.total.value = (z : Int) ∧
        r.moves = transform_cost 1 x + transform_cost 1 y + transform_cost 0 z + 1 :=
  find_lowest_sub_sound 1 1 0 4

/-- C6: raising the cutoff never removes a result, for `candidate_numbers`,
`find_lowest_sum` and `find_lowest_sub` alike. -/
theorem results_monotone_in_cutoff (t a b c k₁ k₂ : Nat) (h : k₁ ≤ k₂) :
    candidate_numbers t k₁ ⊆ candidate_numbers t k₂ ∧
    find_lowest_sum a b c k₁ ⊆ find_lowest_sum a b c k₂ ∧
    find_lowest_sub a b c k₁ ⊆ find_lowest_sub a b c k₂ := by
  refine ⟨?_, ?_, ?_⟩
  · intro vm hvm
    rw [mem_candidate_numbers] at hvm ⊢
    obtain ⟨v, hv, he, hc⟩ := hvm
    exact ⟨v, hv, he, le_trans hc h⟩
  · intro r hr
    rw [mem_find_lowest_sum] at hr ⊢
    obtain ⟨h1, h2, h3, h4, h5, h6⟩ := hr
    exact ⟨h1, h2, h3, h4, h5, le_trans h6 h⟩
  · intro r hr
    rw [mem_find_lowest_sub] at hr ⊢
    obtain ⟨h1, h2, h3, h4, h5, h6⟩ := hr
    exact ⟨h1, h2, h3, h4, h5, le_trans h6 h⟩

/-- Witness for C6 with cutoffs 2 ≤ 3. -/
theorem results_monotone_in_cutoff_witness :
    candidate_numbers 55 2 ⊆ candidate_numbers 55 3 ∧
    find_lowest_sum 1 1 0 2 ⊆ find_lowest_sum 1 1 0 3 ∧
    find_lowest_sub 1 1 0 2 ⊆ find_lowest_sub 1 1 0 3 :=
  results_monotone_in_cutoff 55 1 1 0 2 3 (by decide)

/-- C1 counterexample: with inputs a = 1, b = 0, c = 5 and cutoff 5, the
triple (5, 0, 5) is a valid same-length substitution with 5 + 0 = 5 and total
cost 5 ≤ 5, yet no returned result represents it — the fixed local operand
cutoff 4 discards the candidate 5 for target 1 (its individual cost is 5), so
the claimed completeness fails. -/
theorem find_lowest_sum_cex :
    (5 : Nat) + 0 = 5 ∧
    5 < 10 ^ (str_digits 1).length ∧ (0 : Nat) < 10 ^ (str_digits 0).length ∧
    5 < 10 ^ (str_digits 5).length ∧
    transform_cost 1 5 + transform_cost 0 0 + transform_cost 5 5 ≤ 5 ∧
    ∀ r ∈ find_lowest_sum 1 0 5 5,
      ¬(r.first.value = (5 : Int) ∧ r.second.value = (0 : Int) ∧
        r.total.value = (5 : Int)) := by decide

/-- C1 (amended): `find_lowest_sum` returns, sorted ascending by total cost,
results representing exactly the same-digit-length triples (x, y, z) with
x + y = z, every component's transform cost at most 4 (the fixed local
operand cutoff), and total cost within the global cutoff; each result's cost
is the sum of its components' transform costs.  In particular no such triple
with every component cost ≤ 4 is omitted. -/
theorem find_lowest_sum_spec (a b c k : Nat) :
    (find_lowest_sum a b c k).Pairwise (fun r s => r.moves ≤ s.moves) ∧
    (∀ r ∈ find_lowest_sum a b c k,
      ∃ x y z : Nat, r.first.value = (x : Int) ∧ r.second.value = (y : Int) ∧
        r.total.value = (z : Int) ∧ x + y = z ∧
        transform_cost a x ≤ 4 ∧ transform_cost b y ≤ 4 ∧ transform_cost c z ≤ 4 ∧
        r.moves = transform_cost a x + transform_cost b y + transform_cost c z ∧
        r.moves ≤ k) ∧
    (∀ x y z : Nat,
      x < 10 ^ (str_digits a).length → y < 10 ^ (str_digits b).length →
      z < 10 ^ (str_digits c).length → x + y = z →
      transform_cost a x ≤ 4 → transform_cost b y ≤ 4 → transform_cost c z ≤ 4 →
      transform_cost a x + transform_cost b y + transform_cost c z ≤ k →
      ∃ r ∈ find_lowest_sum a b c k,
        r.first.value = (x : Int) ∧ r.second.value = (y : Int) ∧
        r.total.value = (z : Int) ∧
        r.moves = transform_cost a x + transform_cost b y + transform_cost c z) := by
  refine ⟨?_, ?_, ?_⟩
  · have h : (find_lowest_sum a b c k).Pairwise EquationResult.le := by
      unfold find_lowest_sum
      exact List.sorted_insertionSort _ _
    exact h.imp (fun hh => hh)
  · intro r hr
    rw [mem_find_lowest_sum] at hr
    obtain ⟨h1, h2, h3, h4, h5, h6⟩ := hr
    rw [mem_candidate_numbers] at h1 h2 h3
    obtain ⟨x, hx, hxe, hxc⟩ := h1
    obtain ⟨y, hy, hye, hyc⟩ := h2
    obtain ⟨z, hz, hze, hzc⟩ := h3
    refine ⟨x, y, z, by rw [hxe], by rw [hye], by rw [hze], ?_, hxc, hyc, hzc,
      ?_, h6⟩
    · have h4' : (x : Int) + (y : Int) = (z : Int) := by
        rw [hxe, hye, hze] at h4
        exact h4
      exact_mod_cast h4'
    · rw [h5, hxe, hye, hze]
  · intro x y z hx hy hz hxyz hca hcb hcc hsum
    refine ⟨⟨⟨(x : Int), transform_cost a x⟩, ⟨(y : Int), transform_cost b y⟩,
      ⟨(z : Int), transform_cost c z⟩,
      transform_cost a x + transform_cost b y + transform_cost c z⟩,
      ?_, rfl, rfl, rfl, rfl⟩
    rw [mem_find_lowest_sum]
    refine ⟨?_, ?_, ?_, ?_, rfl, hsum⟩
    · rw [mem_candidate_numbers]
      exact ⟨x, hx, rfl, hca⟩
    · rw [mem_candidate_numbers]
      exact ⟨y, hy, rfl, hcb⟩
    · rw [mem_candidate_numbers]
      exact ⟨z, hz, rfl, hcc⟩
    · show (x : Int) + (y : Int) = (z : Int)
      exact_mod_cast hxyz

/-- Witness for C1 (amended) at the concrete query (1, 1, 2) with cutoff 3. -/
theorem find_lowest_sum_spec_witness :
    (find_lowest_sum 1 1 2 3).Pairwise (fun r s => r.moves ≤ s.moves) ∧
    (∀ r ∈ find_lowest_sum 1 1 2 3,
      ∃ x y z : Nat, r.first.value = (x : Int) ∧ r.second.value = (y : Int) ∧
        r.total.value = (z : Int) ∧ x + y = z ∧
        transform_cost 1 x ≤ 4 ∧ transform_cost 1 y ≤ 4 ∧ transform_cost 2 z ≤ 4 ∧
        r.moves = transform_cost 1 x + transform_cost 1 y + transform_cost 2 z ∧
        r.moves ≤ 3) ∧
    (∀ x y z : Nat,
      x < 10 ^ (str_digits 1).length → y < 10 ^ (str_digits 1).length →
      z < 10 ^ (str_digits 2).length → x + y = z →
      transform_cost 1 x ≤ 4 → transform_cost 1 y ≤ 4 → transform_cost 2 z ≤ 4 →
      transform_cost 1 x + transform_cost 1 y + transform_cost 2 z ≤ 3 →
      ∃ r ∈ find_lowest_sum 1 1 2 3,
        r.first.value = (x : Int) ∧ r.second.value = (y : Int) ∧
        r.total.value = (z : Int) ∧
        r.moves = transform_cost 1 x + transform_cost 1 y + transform_cost 2 z) :=
  find_lowest_sum_spec 1 1 2 3

/-- C3: `find_lowest_sum 59 12 98` with cutoff 4 contains a result describing
86 + 12 = 98 with total cost 4, and 4 is the minimum cost over the non-empty
result list. -/
theorem find_lowest_sum_59_12_98 :
    (∃ r ∈ find_lowest_sum 59 12 98 4,
      r.first.value = (86 : Int) ∧ r.second.value = (12 : Int) ∧
      r.total.value = (98 : Int) ∧ r.moves = 4) ∧
    (∀ r ∈ find_lowest_sum 59 12 98 4, 4 ≤ r.moves) ∧
    find_lowest_sum 59 12 98 4 ≠ [] := by decide

end NumberSticks
